import Mathlib

/-
Verification of the topology aggregation engine of `ec2-topology.py`
(repository aws-samples/ec2-topology-aware-for-slurm).

The script builds, from per-instance network paths, a nested dictionary
(`defaultdict(create_nested_dict)`) mapping switch identifiers to either
further such dictionaries or to lists of slurm node names, and serializes
it to a `topology.conf` file via the recursive writer `recurse_topo`.

Embedding notes:
* Python's nested value (a dict-or-list) is the two-sorted inductive
  `NVal` / `Entries` below; `Entries` is an insertion-ordered association
  list, exactly matching CPython's insertion-ordered `dict`.
* Fallible Python code (statements that raise `TypeError`,
  `UnboundLocalError` or `KeyError` at run time) is embedded in
  `Except Err`; the `Err` constructors name the Python exception raised.
* `json.loads(json.dumps(switches))` in `main` only converts
  `defaultdict` to `dict` and is the identity in this model.
* File-system effects of `write_topo` are embedded as an explicit trace
  of `FileOp` operations.
-/

set_option autoImplicit false

namespace EC2Topo

/-- Run-time errors of the Python script; each constructor names the
exception the corresponding Python statement raises. -/
inductive Err where
  /-- `TypeError`: a list was indexed with a string key
  (`dic[network[cur_level]]` where `dic` is a `list`). -/
  | listIndexTypeError
  /-- `TypeError`: `dic + [val]` where `dic` is a (non-empty) `dict`. -/
  | dictPlusListTypeError
  /-- `KeyError`: dictionary lookup `instances_slurm_hostnames[id]` missed. -/
  | keyError
  /-- `UnboundLocalError`: `node_name` read in `get_slurm_node_name` while
  never assigned (no slurm node matched the address). -/
  | unboundLocal
  deriving DecidableEq, Repr

mutual
/-- Value stored in the nested topology structure: either a list of slurm
node names (the Python `list` leaf produced at the last path level) or a
nested dictionary (the Python `defaultdict`). -/
inductive NVal where
  | nl (ws : List String)
  | nd (es : Entries)
  deriving DecidableEq, Repr
/-- Insertion-ordered entries of one nested dictionary (CPython dicts
preserve insertion order). -/
inductive Entries where
  | nil
  | cons (k : String) (v : NVal) (rest : Entries)
  deriving DecidableEq, Repr
end

/-- Keys of a dictionary in insertion order (Python `list(v.keys())`). -/
def Entries.keys : Entries → List String
  | .nil => []
  | .cons k _ rest => k :: rest.keys

/-- Dictionary membership test (`k in dic`). -/
def Entries.hasKey : Entries → String → Bool
  | .nil, _ => false
  | .cons k' _ rest, k => k' = k || rest.hasKey k

/-- Dictionary lookup, first (unique) occurrence. -/
def Entries.lookup : Entries → String → Option NVal
  | .nil, _ => none
  | .cons k' v rest, k => if k' = k then some v else rest.lookup k

/-- Dictionary update `dic[k] = v`: replaces in place when the key exists,
appends at the end otherwise (CPython `dict.__setitem__`). -/
def Entries.set : Entries → String → NVal → Entries
  | .nil, k, v => .cons k v .nil
  | .cons k' v' rest, k, v =>
      if k' = k then .cons k' v rest else .cons k' v' (rest.set k v)

/-- Translation of `add_instance_nested(dic, val, network, max_level,
cur_level)` (ec2-topology.py lines 154-166), with the index pair
`cur_level`/`max_level` replaced by the remaining suffix
`network[cur_level:]` of the path (`main` always passes
`max_level = len(network)`, so `cur_level < max_level` iff the suffix is
non-empty and `network[cur_level]` is its head).

* suffix `k :: rest` (`cur_level < max_level`): `dic[network[cur_level]]`
  auto-vivifies a fresh empty `defaultdict` when the key is missing
  (`.getD (.nd .nil)`) and raises `TypeError` when `dic` is a list;
  then `dic[network[cur_level]] = add_instance_nested(...)`.
* suffix `[]` (`cur_level == max_level`): `if len(dic) == 0: return [val]
  else: return dic + [val]` — on a list this appends (`[] ++ [val] = [val]`
  covers the `len == 0` branch), on a non-empty dict `dict + list` raises
  `TypeError`. -/
def add_instance_nested (dic : NVal) (val : String) (network : List String) :
    Except Err NVal :=
  match network with
  | k :: rest =>
    match dic with
    | .nl _ => .error .listIndexTypeError
    | .nd es =>
      match add_instance_nested ((es.lookup k).getD (.nd .nil)) val rest with
      | .ok child => .ok (.nd (es.set k child))
      | .error e => .error e
  | [] =>
    match dic with
    | .nl ws => .ok (.nl (ws ++ [val]))
    | .nd .nil => .ok (.nl [val])
    | .nd (.cons _ _ _) => .error .dictPlusListTypeError

/-- Effect of one loop iteration of `main` (lines 195-202) on the
top-level `switches` dictionary: `add_instance_nested(switches, val,
network, len(network))` mutates `switches` in place and its return value
is discarded.  For a non-empty path this is one unfolding of
`add_instance_nested` on the top dictionary; for an empty path the
returned `[val]` is discarded, so an empty `switches` is left unchanged,
while a non-empty one makes `dict + list` raise `TypeError`. -/
def insertTop (es : Entries) (val : String) (network : List String) :
    Except Err Entries :=
  match network with
  | [] =>
    match es with
    | .nil => .ok .nil
    | .cons _ _ _ => .error .dictPlusListTypeError
  | k :: rest =>
    match add_instance_nested ((es.lookup k).getD (.nd .nil)) val rest with
    | .ok child => .ok (es.set k child)
    | .error e => .error e

/-- One record of `main`'s build loop: the slurm node name
(`instances_slurm_hostnames[i['InstanceId']]`) paired with the
`NetworkNodes` path. -/
abbrev PathRec := String × List String

/-- The build loop of `main` starting from an intermediate `switches`
dictionary: insert each record in order, propagating any raised error. -/
def processFrom (es : Entries) : List PathRec → Except Err Entries
  | [] => .ok es
  | r :: rest =>
    match insertTop es r.1 r.2 with
    | .ok es' => processFrom es' rest
    | .error e => .error e

/-- The build loop of `main` from the initial empty
`switches = create_nested_dict()`. -/
def processRecords (l : List PathRec) : Except Err Entries :=
  processFrom .nil l

/-- Line `SwitchName=<k> Switches=<comma-joined keys>` (line 77). -/
def mkSwitchesLine (k : String) (ks : List String) : String :=
  "SwitchName=" ++ k ++ " Switches=" ++ String.intercalate "," ks

/-- Line `SwitchName=<k> Nodes=<comma-joined names>` (line 80). -/
def mkNodesLine (k : String) (ws : List String) : String :=
  "SwitchName=" ++ k ++ " Nodes=" ++ String.intercalate "," ws

/-- Translation of `recurse_topo(file, topology)` (lines 74-80), returning
the sequence of written lines (each `file.write` payload, without the
trailing `@"\n"@` which is restored in `write_topo` below): for each entry
in insertion order, a dict value emits its `Switches=` line and then the
recursion into it, a list value emits a single `Nodes=` line. -/
def recurse_topo : Entries → List String
  | .nil => []
  | .cons k (.nd sub) rest =>
      mkSwitchesLine k sub.keys :: (recurse_topo sub ++ recurse_topo rest)
  | .cons k (.nl ws) rest => mkNodesLine k ws :: recurse_topo rest

/-- Build-then-serialize pipeline of `main` at the record level. -/
def mainLines (l : List PathRec) : Except Err (List String) :=
  match processRecords l with
  | .ok es => .ok (recurse_topo es)
  | .error e => .error e

/-! ### File-system effects of `write_topo` -/

/-- File-system operations performed by the script, as an explicit trace. -/
inductive FileOp where
  /-- `open(path, @"w+")`: opens `path` for writing, truncating it. -/
  | openW (path : String)
  /-- `file.write(data)`. -/
  | write (data : String)
  /-- `file.close()`. -/
  | close
  /-- an `os.rename(src, dst)`-style atomic replacement (the script never
  performs one; the constructor exists so that its absence is statable). -/
  | renameOp (src dst : String)
  deriving DecidableEq, Repr

/-- Whether a file operation is a rename. -/
def FileOp.isRen : FileOp → Bool
  | .renameOp _ _ => true
  | _ => false

/-- Translation of `write_topo(switches, slurm_path)` (lines 83-88) as its
trace of file operations: it opens `slurm_path + '/topology.conf'`
directly with mode `w+` (truncating any existing file in place), writes
each line of `recurse_topo` followed by a newline, and closes the file. -/
def write_topo (switches : Entries) (slurm_path : String) : List FileOp :=
  .openW (slurm_path ++ "/topology.conf") ::
    ((recurse_topo switches).map (fun l => .write (l ++ "\n")) ++ [.close])

/-- Record-level pipeline of `main` returning the file-operation trace:
any error raised while building the tree propagates (the Python process
dies on the uncaught exception) before `write_topo` runs, so an aborted
run performs no file operation. -/
def mainTrace (l : List PathRec) (slurm_path : String) :
    Except Err (List FileOp) :=
  match processRecords l with
  | .ok es => .ok (write_topo es slurm_path)
  | .error e => .error e

/-! ### Analysis predicates over the nested structure

These are not translations of Python code; they are observation
functions used to state properties of the builder and serializer. -/

/-- Node of the tree reached by following a key path from a value. -/
def nodeAt : NVal → List String → Option NVal
  | t, [] => some t
  | .nl _, _ :: _ => none
  | .nd es, k :: rest =>
    match es.lookup k with
    | some v => nodeAt v rest
    | none => none

/-- Workload-group contents at a full key path, when the path ends at a
list leaf. -/
def leafAt (t : NVal) (p : List String) : Option (List String) :=
  match nodeAt t p with
  | some (.nl ws) => some ws
  | _ => none

/-- Whether the node at a key path exists and is a dictionary. -/
def dictAt (t : NVal) (p : List String) : Bool :=
  match nodeAt t p with
  | some (.nd _) => true
  | _ => false

/-- Whether a value is non-empty (a list leaf, or a dict with at least one
entry). -/
def nonEmptyV : NVal → Bool
  | .nl _ => true
  | .nd .nil => false
  | .nd (.cons _ _ _) => true

mutual
/-- Well-formedness of a value reachable in `main`'s `switches` tree:
every nested dictionary has pairwise distinct keys and every value stored
under a key is non-empty (auto-vivified empty dictionaries only exist
transiently inside a single `add_instance_nested` call). -/
def wfV : NVal → Bool
  | .nl _ => true
  | .nd es => wfE es
/-- Well-formedness of dictionary entries: distinct keys, non-empty
well-formed values. -/
def wfE : Entries → Bool
  | .nil => true
  | .cons k v rest => nonEmptyV v && wfV v && !(rest.hasKey k) && wfE rest
end

mutual
/-- Full key paths of all list leaves of a value. -/
def leafPathsV : NVal → List (List String)
  | .nl _ => [[]]
  | .nd es => leafPathsE es
/-- Full key paths of all list leaves under dictionary entries. -/
def leafPathsE : Entries → List (List String)
  | .nil => []
  | .cons k v rest => (leafPathsV v).map (fun q => k :: q) ++ leafPathsE rest
end

/-- Strict prefix test on key paths. -/
def strictPref (p q : List String) : Bool :=
  p.isPrefixOf q && !(p = q)

/-- Two key paths conflict when one is a strict prefix of the other. -/
def conflict (p q : List String) : Bool :=
  strictPref p q || strictPref q p

/-- Success predicate for `add_instance_nested`: walking the path, the
insert succeeds unless it runs through an existing list leaf before the
path ends, or the path ends at an existing non-empty dictionary. -/
def okInsertV : NVal → List String → Bool
  | .nl _, [] => true
  | .nd .nil, [] => true
  | .nd (.cons _ _ _), [] => false
  | .nl _, _ :: _ => false
  | .nd es, k :: rest =>
    match es.lookup k with
    | none => true
    | some v => okInsertV v rest

/-- Fresh subtree created by inserting a value along a missing path: a
chain of singleton dictionaries ending in a singleton list. -/
def freshTree (val : String) : List String → NVal
  | [] => .nl [val]
  | k :: rest => .nd (.cons k (freshTree val rest) .nil)

/-- Names of the records of a run whose path is exactly `q`, in run
order, as an optional workload group (`none` when there are none). -/
def namesOpt (l : List PathRec) (q : List String) : Option (List String) :=
  match (l.filter (fun r => r.2 = q)).map (fun r => r.1) with
  | [] => none
  | ns => some ns

/-- Success test for an embedded fallible computation. -/
def exOk {α : Type} : Except Err α → Bool
  | .ok _ => true
  | .error _ => false

/-- Names of the records of a run whose path is exactly `q`, in run
order, as a plain list. -/
def namesList (l : List PathRec) (q : List String) : List String :=
  (l.filter (fun r => r.2 = q)).map (fun r => r.1)

/-- Append further workload names to an optional workload group,
materialising the group when names arrive. -/
def appendN : Option (List String) → List String → Option (List String)
  | none, [] => none
  | none, n :: ns => some (n :: ns)
  | some ws, ns => some (ws ++ ns)

/-! ### Batch fetch orchestration -/

/-- Translation of `chunk(l, size)` (lines 146-147):
`[l[pos:pos+size] for pos in range(0, len(l), size)]`.  For `size > 0`,
Python's `range(0, n, size)` enumerates `(n + size - 1) / size` values
`0, size, 2*size, ...`, and the slice `l[pos:pos+size]` is
`(l.drop pos).take size`. -/
def chunk {α : Type} (l : List α) (size : Nat) : List (List α) :=
  (List.range' 0 ((l.length + size - 1) / size) size).map
    (fun pos => (l.drop pos).take size)

/-- One topology entry returned by the provider: the instance identifier
with its (possibly absent) `NetworkNodes` path. -/
structure TopoEntry where
  instanceId : String
  networkNodes : Option (List String)
  deriving DecidableEq, Repr

/-- One page of a `describe_instance_topology` response. -/
structure TopoPage where
  instances : List TopoEntry
  nextToken : Option Nat
  deriving DecidableEq, Repr

/-- Model of the paginated provider API for one batch of identifiers: the
full response is a list of pages and the opaque `NextToken` is the index
of the next page (`none` on the last page). -/
def describe_instance_topology (pages : List (List TopoEntry)) (tok : Nat) :
    TopoPage :=
  { instances := pages.getD tok []
    nextToken := if tok + 1 < pages.length then some (tok + 1) else none }

/-- The `while 'NextToken' in response` loop of `get_instances_topology`
(lines 64-69), accumulating page contents from a token; the fuel argument
bounds the number of iterations (tokens strictly increase, so
`pages.length` fuel always suffices). -/
def fetchLoop (pages : List (List TopoEntry)) : Nat → Nat → List TopoEntry
  | 0, _ => []
  | fuel + 1, tok =>
    let r := describe_instance_topology pages tok
    r.instances ++
      (match r.nextToken with
       | none => []
       | some t => fetchLoop pages fuel t)

/-- Translation of `get_instances_topology(ids)` (lines 55-71) against the
page model: issue the first call, then follow `NextToken`s, concatenating
the `Instances` of every page in order. -/
def get_instances_topology (pages : List (List TopoEntry)) : List TopoEntry :=
  let r := describe_instance_topology pages 0
  r.instances ++
    (match r.nextToken with
     | none => []
     | some t => fetchLoop pages pages.length t)

/-! ### Slurm name resolution and the full pipeline of `main` -/

/-- One EC2 instance as consumed by the resolution step: its identifier
and the primary private address selected by
`get_instance_primary_private_ip`. -/
structure Inst where
  instanceId : String
  privateIp : String
  deriving DecidableEq, Repr

/-- One node registered with the scheduler (`scontrol show nodes`). -/
structure SlurmNode where
  address : String
  nodeName : String
  deriving DecidableEq, Repr

/-- Translation of `get_slurm_node_name(ip_address)` (lines 107-112): the
loop assigns `node_name` at every matching node (the last match wins) and
the final `return node_name` raises `UnboundLocalError` when no node
matched. -/
def get_slurm_node_name (nodes : List SlurmNode) (ip : String) :
    Except Err String :=
  match nodes.foldl
      (fun acc n => if n.address = ip then some n.nodeName else acc) none with
  | some nm => .ok nm
  | none => .error .unboundLocal

/-- String-valued dictionary update, same semantics as `Entries.set`. -/
def strSet : List (String × String) → String → String → List (String × String)
  | [], k, v => [(k, v)]
  | (k', v') :: rest, k, v =>
      if k' = k then (k', v) :: rest else (k', v') :: strSet rest k v

/-- The loop of `instances_slurm_hostnames_mapping(instances)` (lines
115-122) from an intermediate dictionary: resolve each instance's address
and store the slurm name under its instance id, propagating a raised
`UnboundLocalError`. -/
def mappingFrom (nodes : List SlurmNode) (acc : List (String × String)) :
    List Inst → Except Err (List (String × String))
  | [] => .ok acc
  | i :: rest =>
    match get_slurm_node_name nodes i.privateIp with
    | .ok nm => mappingFrom nodes (strSet acc i.instanceId nm) rest
    | .error e => .error e

/-- Translation of `instances_slurm_hostnames_mapping(instances)`. -/
def instances_slurm_hostnames_mapping (nodes : List SlurmNode)
    (instances : List Inst) : Except Err (List (String × String)) :=
  mappingFrom nodes [] instances

/-- Dictionary read `instances_slurm_hostnames[id]`, raising `KeyError`
on a missing key. -/
def dictGet (m : List (String × String)) (k : String) : Except Err String :=
  match m.lookup k with
  | some v => .ok v
  | none => .error .keyError

/-- The tree-building loop of `main` (lines 194-202) from an intermediate
`switches` dictionary: entries whose `NetworkNodes` field is absent
(`i.get('NetworkNodes')` returned `None`) are skipped; otherwise the
slurm name is looked up and the record inserted. -/
def buildSwitchesFrom (mapping : List (String × String)) (acc : Entries) :
    List TopoEntry → Except Err Entries
  | [] => .ok acc
  | e :: rest =>
    match e.networkNodes with
    | none => buildSwitchesFrom mapping acc rest
    | some network =>
      match dictGet mapping e.instanceId with
      | .error er => .error er
      | .ok val =>
        match insertTop acc val network with
        | .ok acc' => buildSwitchesFrom mapping acc' rest
        | .error er => .error er

/-- The pipeline of `main` (lines 169-207) after the external fetches,
returning the file-operation trace: build the id-to-hostname mapping,
build the `switches` tree from the topology entries, then run
`write_topo`; any raised error kills the process before `write_topo`. -/
def ec2Main (instances : List Inst) (topo : List TopoEntry)
    (nodes : List SlurmNode) (slurm_path : String) :
    Except Err (List FileOp) :=
  match instances_slurm_hostnames_mapping nodes instances with
  | .error e => .error e
  | .ok mapping =>
    match buildSwitchesFrom mapping .nil topo with
    | .error e => .error e
    | .ok switches => .ok (write_topo switches slurm_path)

/-! ### Induction principles for the mutual tree type -/

mutual
/-- Mutual structural induction, value side. -/
theorem nvalInd {mv : NVal → Prop} {me : Entries → Prop}
    (hnl : ∀ ws, mv (.nl ws)) (hnd : ∀ es, me es → mv (.nd es))
    (hnil : me .nil)
    (hcons : ∀ k v rest, mv v → me rest → me (.cons k v rest)) :
    ∀ v, mv v
  | .nl ws => hnl ws
  | .nd es => hnd es (entriesInd hnl hnd hnil hcons es)
/-- Mutual structural induction, entries side. -/
theorem entriesInd {mv : NVal → Prop} {me : Entries → Prop}
    (hnl : ∀ ws, mv (.nl ws)) (hnd : ∀ es, me es → mv (.nd es))
    (hnil : me .nil)
    (hcons : ∀ k v rest, mv v → me rest → me (.cons k v rest)) :
    ∀ es, me es
  | .nil => hnil
  | .cons k v rest =>
      hcons k v rest (nvalInd hnl hnd hnil hcons v)
        (entriesInd hnl hnd hnil hcons rest)
end

/-- Structural induction over entries alone (the recursion of the
dictionary operations never enters the stored values). -/
theorem entriesIndOn {me : Entries → Prop} (nil : me .nil)
    (cons : ∀ k v rest, me rest → me (.cons k v rest)) : ∀ es, me es :=
  @entriesInd (fun _ => True) me (fun _ => trivial) (fun _ _ => trivial)
    nil (fun k v rest _ h => cons k v rest h)

/-! ### Dictionary lemmas -/

theorem lookup_set_self (es : Entries) (k : String) (v : NVal) :
    (es.set k v).lookup k = some v := by
  induction es using entriesIndOn with
  | nil => simp [Entries.set, Entries.lookup]
  | cons k' v' rest ih =>
    by_cases h : k' = k
    · simp [Entries.set, h, Entries.lookup]
    · simp [Entries.set, h, Entries.lookup, ih]

theorem lookup_set_ne (es : Entries) {k k' : String} (v : NVal) (h : k' ≠ k) :
    (es.set k v).lookup k' = es.lookup k' := by
  induction es using entriesIndOn with
  | nil => simp [Entries.set, Entries.lookup, Ne.symm h]
  | cons k'' v'' rest ih =>
    by_cases h2 : k'' = k
    · have h3 : ¬ k'' = k' := by
        intro e; exact h (e.symm.trans h2)
      simp [Entries.set, h2, Entries.lookup, h3, Ne.symm h]
    · by_cases h3 : k'' = k'
      · simp [Entries.set, h2, Entries.lookup, h3, h]
      · simp [Entries.set, h2, Entries.lookup, h3, ih]

theorem hasKey_set (es : Entries) (k k' : String) (v : NVal) :
    (es.set k v).hasKey k' = (es.hasKey k' || k = k') := by
  induction es using entriesIndOn with
  | nil => simp [Entries.set, Entries.hasKey]
  | cons k'' v'' rest ih =>
    by_cases h2 : k'' = k
    · subst h2
      by_cases h3 : k'' = k' <;>
        simp [Entries.set, Entries.hasKey, h3]
    · simp [Entries.set, h2, Entries.hasKey, ih, Bool.or_assoc]

theorem nonEmptyV_set (es : Entries) (k : String) (v : NVal) :
    nonEmptyV (.nd (es.set k v)) = true := by
  cases es with
  | nil => rfl
  | cons k' v' rest =>
    by_cases h : k' = k <;> simp [Entries.set, h, nonEmptyV]

theorem wfE_lookup (es : Entries) (k : String) (v : NVal)
    (hwf : wfE es = true) (hl : es.lookup k = some v) :
    wfV v = true ∧ nonEmptyV v = true := by
  revert hwf hl
  induction es using entriesIndOn with
  | nil => intro hwf hl; simp [Entries.lookup] at hl
  | cons k' v' rest ih =>
    intro hwf hl
    simp [wfE] at hwf
    obtain ⟨⟨⟨hne', hv'⟩, hk⟩, hrest⟩ := hwf
    by_cases h : k' = k
    · simp [Entries.lookup, h] at hl
      exact ⟨hl ▸ hv', hl ▸ hne'⟩
    · simp [Entries.lookup, h] at hl
      exact ih hrest hl

theorem wfE_set (es : Entries) (k : String) (v : NVal) (hwf : wfE es = true)
    (hne : nonEmptyV v = true) (hv : wfV v = true) :
    wfE (es.set k v) = true := by
  revert hwf
  induction es using entriesIndOn with
  | nil => intro hwf; simp [Entries.set, wfE, Entries.hasKey, hne, hv]
  | cons k' v' rest ih =>
    intro hwf
    simp [wfE] at hwf
    obtain ⟨⟨⟨hne', hv'⟩, hk⟩, hrest⟩ := hwf
    by_cases h : k' = k
    · subst h
      simp [Entries.set, wfE, hne, hv, hk, hrest]
    · simp [Entries.set, h, wfE, hne', hv', hasKey_set, hk, Ne.symm h,
        ih hrest]

/-! ### Computation lemmas for the observation functions -/

theorem leafAt_nl (ws : List String) (q : List String) :
    leafAt (.nl ws) q = if q = [] then some ws else none := by
  cases q <;> simp [leafAt, nodeAt]

theorem leafAt_nil (q : List String) : leafAt (.nd .nil) q = none := by
  cases q <;> simp [leafAt, nodeAt, Entries.lookup]

theorem leafAt_nd_nilpath (es : Entries) : leafAt (.nd es) [] = none := by
  simp [leafAt, nodeAt]

theorem leafAt_nd_cons (es : Entries) (k : String) (q : List String) :
    leafAt (.nd es) (k :: q) =
      (match es.lookup k with
       | some v => leafAt v q
       | none => none) := by
  cases h : es.lookup k <;> simp [leafAt, nodeAt, h]

theorem dictAt_nl (ws : List String) (q : List String) :
    dictAt (.nl ws) q = false := by
  cases q <;> simp [dictAt, nodeAt]

theorem dictAt_nd_nilpath (es : Entries) : dictAt (.nd es) [] = true := by
  simp [dictAt, nodeAt]

theorem dictAt_nd_cons (es : Entries) (k : String) (q : List String) :
    dictAt (.nd es) (k :: q) =
      (match es.lookup k with
       | some v => dictAt v q
       | none => false) := by
  cases h : es.lookup k <;> simp [dictAt, nodeAt, h]

/-! ### Prefix and conflict lemmas -/

theorem strictPref_nil_right (p : List String) : strictPref p [] = false := by
  cases p <;> simp [strictPref, List.isPrefixOf]

theorem strictPref_nil_left (k : String) (q : List String) :
    strictPref [] (k :: q) = true := by
  simp [strictPref, List.isPrefixOf]

theorem strictPref_cons_cons (a b : String) (p q : List String) :
    strictPref (a :: p) (b :: q) = (a = b && strictPref p q) := by
  by_cases h : a = b
  · subst h
    simp [strictPref, List.isPrefixOf_cons₂]
  · simp [strictPref, List.isPrefixOf_cons₂, h]

theorem strictPref_irrefl (p : List String) : strictPref p p = false := by
  simp [strictPref]

theorem conflict_comm (p q : List String) : conflict p q = conflict q p := by
  simp [conflict, Bool.or_comm]

theorem conflict_self (p : List String) : conflict p p = false := by
  simp [conflict, strictPref_irrefl]

theorem conflict_cons_cons (a : String) (p q : List String) :
    conflict (a :: p) (a :: q) = conflict p q := by
  simp [conflict, strictPref_cons_cons]

theorem conflict_cons_ne (a b : String) (p q : List String) (h : a ≠ b) :
    conflict (a :: p) (b :: q) = false := by
  simp [conflict, strictPref_cons_cons, h, Ne.symm h]

theorem conflict_nil_cons (k : String) (q : List String) :
    conflict [] (k :: q) = true := by
  simp [conflict, strictPref_nil_left]

theorem conflict_cons_nil (k : String) (q : List String) :
    conflict (k :: q) [] = true := by
  rw [conflict_comm]; exact conflict_nil_cons k q

/-! ### Behaviour of one `add_instance_nested` call -/

theorem add_nil_fresh (val : String) :
    ∀ p, add_instance_nested (.nd .nil) val p = .ok (freshTree val p)
  | [] => rfl
  | k :: rest => by
    simp [add_instance_nested, Entries.lookup, add_nil_fresh val rest,
      freshTree, Entries.set]

theorem add_isOk (val : String) :
    ∀ (p : List String) (t : NVal),
      exOk (add_instance_nested t val p) = okInsertV t p
  | [], .nl _ => rfl
  | [], .nd .nil => rfl
  | [], .nd (.cons _ _ _) => rfl
  | _ :: _, .nl _ => rfl
  | k :: rest, .nd es => by
    cases hl : es.lookup k with
    | none =>
      simp [add_instance_nested, hl, okInsertV, add_nil_fresh, exOk]
    | some v =>
      have ih := add_isOk val rest v
      simp only [add_instance_nested, hl, okInsertV, Option.getD_some]
      cases ha : add_instance_nested v val rest with
      | ok c => rw [ha] at ih; simpa [exOk] using ih
      | error e => rw [ha] at ih; simpa [exOk] using ih

theorem leafAt_fresh (val : String) :
    ∀ (p q : List String),
      leafAt (freshTree val p) q = if q = p then some [val] else none
  | [], q => by cases q <;> simp [freshTree, leafAt_nl]
  | _ :: _, [] => by simp [freshTree, leafAt_nd_nilpath]
  | k :: rest, k' :: q' => by
    by_cases h : k' = k
    · subst h
      simp only [freshTree, leafAt_nd_cons, Entries.lookup, if_pos rfl]
      by_cases h2 : q' = rest <;> simp [h2, leafAt_fresh val rest]
    · simp [freshTree, leafAt_nd_cons, Entries.lookup, Ne.symm h, h]

theorem dictAt_fresh (val : String) :
    ∀ (p q : List String), dictAt (freshTree val p) q = strictPref q p
  | [], q => by
    cases q <;> simp [freshTree, dictAt_nl, strictPref_nil_right,
      strictPref, List.isPrefixOf]
  | k :: rest, [] => by
    simp [freshTree, dictAt_nd_nilpath, strictPref_nil_left]
  | k :: rest, k' :: q' => by
    by_cases h : k' = k
    · subst h
      simp [freshTree, dictAt_nd_cons, Entries.lookup,
        dictAt_fresh val rest q', strictPref_cons_cons]
    · simp [freshTree, dictAt_nd_cons, Entries.lookup, Ne.symm h,
        strictPref_cons_cons, h]

theorem add_leafAt (val : String) :
    ∀ (p : List String) (t t' : NVal),
      add_instance_nested t val p = .ok t' →
      leafAt t' p = some ((leafAt t p).getD [] ++ [val]) ∧
        ∀ q, q ≠ p → leafAt t' q = leafAt t q
  | [], .nl ws, t', h => by
    simp only [add_instance_nested, Except.ok.injEq] at h
    subst h
    refine ⟨by simp [leafAt_nl], ?_⟩
    intro q hq
    cases q with
    | nil => exact absurd rfl hq
    | cons a as => simp [leafAt_nl]
  | [], .nd .nil, t', h => by
    simp only [add_instance_nested, Except.ok.injEq] at h
    subst h
    refine ⟨by simp [leafAt_nl, leafAt_nd_nilpath], ?_⟩
    intro q hq
    cases q with
    | nil => exact absurd rfl hq
    | cons a as => simp [leafAt_nl, leafAt_nil]
  | [], .nd (.cons _ _ _), t', h => by
    simp [add_instance_nested] at h
  | _ :: _, .nl _, t', h => by
    simp [add_instance_nested] at h
  | k :: rest, .nd es, t', h => by
    cases hl : es.lookup k with
    | none =>
      rw [add_instance_nested, hl] at h
      simp only [Option.getD_none] at h
      rw [add_nil_fresh] at h
      simp only [Except.ok.injEq] at h
      subst h
      constructor
      · simp [leafAt_nd_cons, lookup_set_self, hl, leafAt_fresh]
      · intro q hq
        cases q with
        | nil => simp [leafAt_nd_nilpath]
        | cons k'' q'' =>
          by_cases h2 : k'' = k
          · subst h2
            have h3 : ¬ q'' = rest := by
              intro e; exact hq (by rw [e])
            simp [leafAt_nd_cons, lookup_set_self, hl, leafAt_fresh, h3]
          · simp [leafAt_nd_cons, lookup_set_ne es _ h2]
    | some v =>
      rw [add_instance_nested, hl] at h
      simp only [Option.getD_some] at h
      cases ha : add_instance_nested v val rest with
      | error e => rw [ha] at h; cases h
      | ok c =>
        rw [ha] at h
        simp only [Except.ok.injEq] at h
        subst h
        obtain ⟨ih1, ih2⟩ := add_leafAt val rest v c ha
        constructor
        · simp [leafAt_nd_cons, lookup_set_self, hl, ih1]
        · intro q hq
          cases q with
          | nil => simp [leafAt_nd_nilpath]
          | cons k'' q'' =>
            by_cases h2 : k'' = k
            · subst h2
              have h3 : ¬ q'' = rest := by
                intro e; exact hq (by rw [e])
              simp [leafAt_nd_cons, lookup_set_self, hl, ih2 q'' h3]
            · simp [leafAt_nd_cons, lookup_set_ne es _ h2]

theorem add_dictAt (val : String) :
    ∀ (p : List String) (t t' : NVal), wfV t = true →
      (p = [] → nonEmptyV t = true) →
      add_instance_nested t val p = .ok t' →
      ∀ q, dictAt t' q = (dictAt t q || strictPref q p)
  | [], .nl ws, t', _, _, h => by
    simp only [add_instance_nested, Except.ok.injEq] at h
    subst h
    intro q
    simp [dictAt_nl, strictPref_nil_right]
  | [], .nd .nil, t', _, hne, h => by
    simp [nonEmptyV] at hne
  | [], .nd (.cons _ _ _), t', _, _, h => by
    simp [add_instance_nested] at h
  | _ :: _, .nl _, t', _, _, h => by
    simp [add_instance_nested] at h
  | k :: rest, .nd es, t', hwf, _, h => by
    cases hl : es.lookup k with
    | none =>
      rw [add_instance_nested, hl] at h
      simp only [Option.getD_none] at h
      rw [add_nil_fresh] at h
      simp only [Except.ok.injEq] at h
      subst h
      intro q
      cases q with
      | nil => simp [dictAt_nd_nilpath, strictPref_nil_left]
      | cons k'' q'' =>
        by_cases h2 : k'' = k
        · subst h2
          simp [dictAt_nd_cons, lookup_set_self, hl, dictAt_fresh,
            strictPref_cons_cons]
        · simp [dictAt_nd_cons, lookup_set_ne es _ h2,
            strictPref_cons_cons, h2]
    | some v =>
      rw [add_instance_nested, hl] at h
      simp only [Option.getD_some] at h
      cases ha : add_instance_nested v val rest with
      | error e => rw [ha] at h; cases h
      | ok c =>
        rw [ha] at h
        simp only [Except.ok.injEq] at h
        subst h
        have hv := wfE_lookup es k v hwf hl
        have ih := add_dictAt val rest v c hv.1 (fun _ => hv.2) ha
        intro q
        cases q with
        | nil => simp [dictAt_nd_nilpath]
        | cons k'' q'' =>
          by_cases h2 : k'' = k
          · subst h2
            simp [dictAt_nd_cons, lookup_set_self, hl, ih q'',
              strictPref_cons_cons]
          · simp [dictAt_nd_cons, lookup_set_ne es _ h2,
              strictPref_cons_cons, h2]

theorem wf_fresh (val : String) :
    ∀ p, wfV (freshTree val p) = true ∧ nonEmptyV (freshTree val p) = true
  | [] => by simp [freshTree, wfV, nonEmptyV]
  | k :: rest => by
    have ih := wf_fresh val rest
    constructor
    · simp [freshTree, wfV, wfE, Entries.hasKey, ih.1, ih.2]
    · simp [freshTree, nonEmptyV]

theorem exists_leaf : ∀ v : NVal, wfV v = true → nonEmptyV v = true →
    ∃ q, (leafAt v q).isSome = true :=
  @nvalInd
    (fun v => wfV v = true → nonEmptyV v = true →
      ∃ q, (leafAt v q).isSome = true)
    (fun es => wfE es = true →
      (∃ k v rest, es = .cons k v rest) →
        ∃ q, (leafAt (.nd es) q).isSome = true)
    (fun _ _ _ => ⟨[], by simp [leafAt_nl]⟩)
    (fun es hme hwf hne => hme hwf (by
      cases es with
      | nil => simp [nonEmptyV] at hne
      | cons k v rest => exact ⟨k, v, rest, rfl⟩))
    (fun _ hex => by obtain ⟨k, v, rest, h⟩ := hex; cases h)
    (fun k v rest hv _ hwf _ => by
      simp [wfE] at hwf
      obtain ⟨⟨⟨hne', hv'⟩, _⟩, _⟩ := hwf
      obtain ⟨q0, hq0⟩ := hv hv' hne'
      exact ⟨k :: q0, by simp [leafAt_nd_cons, Entries.lookup, hq0]⟩)

theorem okInsert_iff :
    ∀ (p : List String) (t : NVal), wfV t = true →
      (okInsertV t p = true ↔
        ∀ q, (leafAt t q).isSome = true → conflict p q = false)
  | [], .nl ws, _ => by
    simp only [okInsertV]
    constructor
    · intro _ q hq
      cases q with
      | nil => simp [conflict_self]
      | cons a as => simp [leafAt_nl] at hq
    · intro _; trivial
  | [], .nd .nil, _ => by
    simp only [okInsertV]
    constructor
    · intro _ q hq
      simp [leafAt_nil] at hq
    · intro _; trivial
  | [], .nd (.cons k v rest), hwf => by
    simp only [okInsertV]
    constructor
    · intro h; simp at h
    · intro h
      obtain ⟨q, hq⟩ :=
        exists_leaf (.nd (.cons k v rest)) hwf (by simp [nonEmptyV])
      cases q with
      | nil => simp [leafAt_nd_nilpath] at hq
      | cons a as =>
        have hc := h _ hq
        rw [conflict_nil_cons] at hc
        cases hc
  | k :: rest, .nl ws, _ => by
    simp only [okInsertV]
    constructor
    · intro h; simp at h
    · intro h
      have hc := h [] (by simp [leafAt_nl])
      rw [conflict_cons_nil] at hc
      cases hc
  | k :: rest, .nd es, hwf => by
    cases hl : es.lookup k with
    | none =>
      simp only [okInsertV, hl]
      constructor
      · intro _ q hq
        cases q with
        | nil => simp [leafAt_nd_nilpath] at hq
        | cons k' q' =>
          by_cases h2 : k' = k
          · subst h2; simp [leafAt_nd_cons, hl] at hq
          · exact conflict_cons_ne k k' rest q' (Ne.symm h2)
      · intro _; trivial
    | some v =>
      have hv := wfE_lookup es k v hwf hl
      have ih := okInsert_iff rest v hv.1
      simp only [okInsertV, hl]
      rw [ih]
      constructor
      · intro H q hq
        cases q with
        | nil => simp [leafAt_nd_nilpath] at hq
        | cons k' q' =>
          by_cases h2 : k' = k
          · subst h2
            simp only [leafAt_nd_cons, hl] at hq
            rw [conflict_cons_cons]
            exact H q' hq
          · exact conflict_cons_ne k k' rest q' (Ne.symm h2)
      · intro H q' hq'
        have hc := H (k :: q') (by simp [leafAt_nd_cons, hl, hq'])
        rwa [conflict_cons_cons] at hc

/-- Bridge between the in-place top-level mutation of `main`'s loop and
`add_instance_nested` on non-empty paths. -/
theorem insertTop_add (es : Entries) (val k : String) (rest : List String) :
    add_instance_nested (.nd es) val (k :: rest) =
      (insertTop es val (k :: rest)).map NVal.nd := by
  simp only [add_instance_nested, insertTop]
  cases add_instance_nested ((es.lookup k).getD (.nd .nil)) val rest <;> rfl

theorem add_wf (val : String) :
    ∀ (p : List String) (t t' : NVal), wfV t = true →
      add_instance_nested t val p = .ok t' →
      wfV t' = true ∧ nonEmptyV t' = true
  | [], .nl ws, t', _, h => by
    simp only [add_instance_nested, Except.ok.injEq] at h
    subst h
    simp [wfV, nonEmptyV]
  | [], .nd .nil, t', _, h => by
    simp only [add_instance_nested, Except.ok.injEq] at h
    subst h
    simp [wfV, nonEmptyV]
  | [], .nd (.cons _ _ _), t', _, h => by
    simp [add_instance_nested] at h
  | _ :: _, .nl _, t', _, h => by
    simp [add_instance_nested] at h
  | k :: rest, .nd es, t', hwf, h => by
    cases hl : es.lookup k with
    | none =>
      rw [add_instance_nested, hl] at h
      simp only [Option.getD_none] at h
      rw [add_nil_fresh] at h
      simp only [Except.ok.injEq] at h
      subst h
      have hf := wf_fresh val rest
      exact ⟨wfE_set es k _ hwf hf.2 hf.1, nonEmptyV_set es k _⟩
    | some v =>
      rw [add_instance_nested, hl] at h
      simp only [Option.getD_some] at h
      cases ha : add_instance_nested v val rest with
      | error e => rw [ha] at h; cases h
      | ok c =>
        rw [ha] at h
        simp only [Except.ok.injEq] at h
        subst h
        have hv := wfE_lookup es k v hwf hl
        have ih := add_wf val rest v c hv.1 ha
        exact ⟨wfE_set es k c hwf ih.2 ih.1, nonEmptyV_set es k c⟩

/-! ### Bridges between `insertTop` and `add_instance_nested` -/

theorem insertTop_isOk (es : Entries) (val k : String) (rest : List String) :
    exOk (insertTop es val (k :: rest)) = okInsertV (.nd es) (k :: rest) := by
  have h := add_isOk val (k :: rest) (.nd es)
  rw [insertTop_add] at h
  cases hi : insertTop es val (k :: rest) <;>
    rw [hi] at h <;> simpa [exOk, Except.map] using h

theorem insertTop_ok_add (es es' : Entries) (val k : String)
    (rest : List String) (h : insertTop es val (k :: rest) = .ok es') :
    add_instance_nested (.nd es) val (k :: rest) = .ok (.nd es') := by
  rw [insertTop_add, h]; rfl

/-! ### Small algebra of `appendN` and `namesList` -/

theorem appendN_nil (o : Option (List String)) : appendN o [] = o := by
  cases o <;> simp [appendN]

theorem appendN_append (o : Option (List String)) (a b : List String) :
    appendN (appendN o a) b = appendN o (a ++ b) := by
  cases o <;> cases a <;> cases b <;> simp [appendN]

theorem appendN_snoc (o : Option (List String)) (x : String) :
    appendN o [x] = some (o.getD [] ++ [x]) := by
  cases o <;> simp [appendN]

theorem namesList_cons (r : PathRec) (rest : List PathRec)
    (q : List String) :
    namesList (r :: rest) q =
      (if r.2 = q then [r.1] else []) ++ namesList rest q := by
  by_cases h : r.2 = q <;> simp [namesList, List.filter_cons, h]

theorem dictAt_nilE (q : List String) :
    dictAt (.nd .nil) q = decide (q = []) := by
  cases q <;> simp [dictAt_nd_nilpath, dictAt_nd_cons, Entries.lookup]

/-! ### The build loop: success and characterization -/

theorem processFrom_ok :
    ∀ (l : List PathRec) (es : Entries), wfE es = true →
      (∀ r ∈ l, r.2 ≠ []) →
      (∀ r ∈ l, ∀ q, (leafAt (.nd es) q).isSome = true →
        conflict r.2 q = false) →
      List.Pairwise (fun r s => conflict r.2 s.2 = false) l →
      ∃ es', processFrom es l = .ok es' ∧ wfE es' = true ∧
        (∀ q, (leafAt (.nd es') q).isSome = true ↔
          ((leafAt (.nd es) q).isSome = true ∨ q ∈ l.map (fun r => r.2)))
  | [], es, hwf, _, _, _ => ⟨es, rfl, hwf, fun q => by simp⟩
  | r :: rest, es, hwf, hne, hcomp, hpw => by
    cases hp : r.2 with
    | nil => exact absurd hp (hne r (by simp))
    | cons k prest =>
      have hok : okInsertV (.nd es) (k :: prest) = true := by
        rw [okInsert_iff (k :: prest) (.nd es) hwf]
        intro q hq
        have hc := hcomp r (by simp) q hq
        rwa [hp] at hc
      have hex : exOk (insertTop es r.1 r.2) = true := by
        rw [hp, insertTop_isOk, hok]
      cases hi : insertTop es r.1 r.2 with
      | error e => rw [hi] at hex; simp [exOk] at hex
      | ok es1 =>
        have hadd : add_instance_nested (.nd es) r.1 r.2 = .ok (.nd es1) := by
          rw [hp] at hi ⊢
          exact insertTop_ok_add es es1 r.1 k prest hi
        have hwf1 : wfE es1 = true :=
          (add_wf r.1 r.2 (.nd es) (.nd es1) hwf hadd).1
        obtain ⟨hl1, hl2⟩ := add_leafAt r.1 r.2 (.nd es) (.nd es1) hadd
        have hstep : ∀ q, (leafAt (.nd es1) q).isSome = true ↔
            ((leafAt (.nd es) q).isSome = true ∨ q = r.2) := by
          intro q
          by_cases hq : q = r.2
          · subst hq; rw [hl1]; simp
          · rw [hl2 q hq]; simp [hq]
        have ihcomp : ∀ s ∈ rest, ∀ q,
            (leafAt (.nd es1) q).isSome = true → conflict s.2 q = false := by
          intro s hs q hq
          rcases (hstep q).1 hq with h | h
          · exact hcomp s (by simp [hs]) q h
          · subst h
            have hc := (List.pairwise_cons.1 hpw).1 s hs
            rwa [conflict_comm]
        obtain ⟨es', hpr, hwf', hiff⟩ := processFrom_ok rest es1 hwf1
          (fun s hs => hne s (by simp [hs])) ihcomp
          (List.pairwise_cons.1 hpw).2
        refine ⟨es', ?_, hwf', ?_⟩
        · simp only [processFrom, hi]
          exact hpr
        · intro q
          rw [hiff q, hstep q]
          simp [List.map_cons, List.mem_cons, or_assoc]

theorem processFrom_char :
    ∀ (l : List PathRec) (es0 es : Entries), wfE es0 = true →
      (∀ r ∈ l, r.2 ≠ []) →
      processFrom es0 l = .ok es →
      (∀ q, leafAt (.nd es) q =
        appendN (leafAt (.nd es0) q) (namesList l q)) ∧
      (∀ q, dictAt (.nd es) q =
        (dictAt (.nd es0) q || l.any (fun r => strictPref q r.2)))
  | [], es0, es, _, _, h => by
    simp only [processFrom, Except.ok.injEq] at h
    subst h
    exact ⟨fun q => by simp [appendN_nil, namesList],
      fun q => by simp⟩
  | r :: rest, es0, es, hwf, hne, h => by
    cases hp : r.2 with
    | nil => exact absurd hp (hne r (by simp))
    | cons k prest =>
      simp only [processFrom] at h
      cases hi : insertTop es0 r.1 r.2 with
      | error e => rw [hi] at h; cases h
      | ok es1 =>
        rw [hi] at h
        have hadd : add_instance_nested (.nd es0) r.1 r.2 = .ok (.nd es1) := by
          rw [hp] at hi ⊢
          exact insertTop_ok_add es0 es1 r.1 k prest hi
        have hwf1 : wfE es1 = true :=
          (add_wf r.1 r.2 (.nd es0) (.nd es1) hwf hadd).1
        obtain ⟨ihl, ihd⟩ := processFrom_char rest es1 es hwf1
          (fun s hs => hne s (by simp [hs])) h
        obtain ⟨hl1, hl2⟩ := add_leafAt r.1 r.2 (.nd es0) (.nd es1) hadd
        have hd1 := add_dictAt r.1 r.2 (.nd es0) (.nd es1) hwf
          (by simp [hp]) hadd
        constructor
        · intro q
          rw [ihl q, namesList_cons]
          by_cases hq : q = r.2
          · subst hq
            rw [hl1, if_pos rfl, ← appendN_append, appendN_snoc]
          · rw [hl2 q hq, if_neg (fun e => hq e.symm), List.nil_append]
        · intro q
          rw [ihd q, hd1 q]
          simp [Bool.or_assoc]

theorem processRecords_char (l : List PathRec) (es : Entries)
    (hne : ∀ r ∈ l, r.2 ≠ []) (h : processRecords l = .ok es) :
    (∀ q, leafAt (.nd es) q = appendN none (namesList l q)) ∧
    (∀ q, dictAt (.nd es) q =
      (decide (q = []) || l.any (fun r => strictPref q r.2))) := by
  obtain ⟨h1, h2⟩ := processFrom_char l .nil es rfl hne h
  exact ⟨fun q => by rw [h1 q, leafAt_nil],
    fun q => by rw [h2 q, dictAt_nilE]⟩

theorem ok_pairwise (l : List PathRec) (es : Entries)
    (hne : ∀ r ∈ l, r.2 ≠ []) (h : processRecords l = .ok es) :
    List.Pairwise (fun r s => conflict r.2 s.2 = false) l := by
  obtain ⟨hcl, hcd⟩ := processRecords_char l es hne h
  have key : ∀ x y : PathRec, x ∈ l → y ∈ l →
      strictPref x.2 y.2 = true → False := by
    intro x y hx hy hsp
    have h1 : (leafAt (.nd es) x.2).isSome = true := by
      rw [hcl x.2]
      have hmem : x.1 ∈ namesList l x.2 := by
        simp only [namesList, List.mem_map]
        exact ⟨x, List.mem_filter.2 ⟨hx, by simp⟩, rfl⟩
      cases hn : namesList l x.2 with
      | nil => rw [hn] at hmem; cases hmem
      | cons c cs => simp [appendN]
    have h2 : dictAt (.nd es) x.2 = true := by
      rw [hcd x.2]
      have hany : l.any (fun r => strictPref x.2 r.2) = true :=
        List.any_eq_true.2 ⟨y, hy, hsp⟩
      simp [hany]
    cases hn : nodeAt (.nd es) x.2 with
    | none => simp [leafAt, hn] at h1
    | some v =>
      cases v with
      | nl ws => simp [dictAt, hn] at h2
      | nd sub => simp [leafAt, hn] at h1
  apply List.pairwise_of_forall_mem_list
  intro a ha b hb
  cases hc : conflict a.2 b.2 with
  | false => rfl
  | true =>
    exfalso
    rw [conflict] at hc
    rcases Bool.or_eq_true_iff.1 hc with hsp | hsp
    · exact key a b ha hb hsp
    · exact key b a hb ha hsp

/-! ### Chunking lemmas -/

theorem chunk_aux {α : Type} (l : List α) (size : Nat) :
    ∀ (k start : Nat), l.length ≤ start + k * size →
      ((List.range' start k size).map
        (fun pos => (l.drop pos).take size)).flatten = l.drop start
  | 0, start, h => by
    simp only [List.range'_zero, List.map_nil, List.flatten_nil]
    exact (List.drop_eq_nil_of_le (by simpa using h)).symm
  | k + 1, start, h => by
    rw [List.range'_succ]
    simp only [List.map_cons, List.flatten_cons]
    rw [chunk_aux l size k (start + size)
      (by rw [Nat.succ_mul] at h; omega)]
    rw [← List.drop_drop]
    exact List.take_append_drop size (l.drop start)

theorem chunk_flatten {α : Type} (l : List α) (size : Nat) (hs : 0 < size) :
    (chunk l size).flatten = l := by
  have hlen : l.length ≤ 0 + ((l.length + size - 1) / size) * size := by
    rcases Nat.eq_zero_or_pos l.length with h0 | hpos
    · simp [h0]
    · have hdm := Nat.div_add_mod (l.length + size - 1) size
      have hmod : (l.length + size - 1) % size < size := Nat.mod_lt _ hs
      rw [Nat.mul_comm] at hdm
      generalize (l.length + size - 1) / size * size = x at hdm ⊢
      generalize (l.length + size - 1) % size = y at hdm hmod
      omega
  have h := chunk_aux l size ((l.length + size - 1) / size) 0 hlen
  simpa [chunk] using h

theorem chunk_size_le {α : Type} (l : List α) (size : Nat) :
    ∀ c ∈ chunk l size, c.length ≤ size := by
  intro c hc
  simp only [chunk, List.mem_map] at hc
  obtain ⟨pos, _, rfl⟩ := hc
  simp [List.length_take]

/-! ### Pagination lemmas -/

theorem fetchLoop_flatten (pages : List (List TopoEntry)) :
    ∀ (fuel tok : Nat), tok < pages.length →
      pages.length ≤ tok + fuel →
      fetchLoop pages fuel tok = (pages.drop tok).flatten
  | 0, tok, h1, h2 => by omega
  | fuel + 1, tok, h1, h2 => by
    simp only [fetchLoop, describe_instance_topology]
    rw [List.getD_eq_getElem pages [] h1, List.drop_eq_getElem_cons h1,
      List.flatten_cons]
    by_cases h3 : tok + 1 < pages.length
    · simp only [if_pos h3]
      rw [fetchLoop_flatten pages fuel (tok + 1) h3 (by omega)]
    · simp only [if_neg h3]
      have hnil : pages.drop (tok + 1) = [] :=
        List.drop_eq_nil_of_le (by omega)
      simp [hnil]

theorem get_instances_topology_flatten (pages : List (List TopoEntry)) :
    get_instances_topology pages = pages.flatten := by
  cases pages with
  | nil => rfl
  | cons p ps =>
    cases ps with
    | nil => rfl
    | cons q qs =>
      have h1 : 0 + 1 < (p :: q :: qs).length := by
        simp [List.length_cons]
      simp only [get_instances_topology, describe_instance_topology,
        List.getD_cons_zero, if_pos h1]
      rw [fetchLoop_flatten (p :: q :: qs) (p :: q :: qs).length (0 + 1) h1
        (by omega)]
      simp

/-! ### Slurm name resolution lemmas -/

theorem gsnn_no_match (nodes : List SlurmNode) (ip : String)
    (h : ∀ n ∈ nodes, n.address ≠ ip) :
    get_slurm_node_name nodes ip = .error .unboundLocal := by
  have hf : nodes.foldl
      (fun acc n => if n.address = ip then some n.nodeName else acc)
      none = none := by
    induction nodes with
    | nil => rfl
    | cons n ns ih =>
      simp only [List.foldl_cons, if_neg (h n (by simp))]
      exact ih (fun m hm => h m (by simp [hm]))
  simp [get_slurm_node_name, hf]

theorem gsnn_error_shape (nodes : List SlurmNode) (ip : String) (e : Err)
    (h : get_slurm_node_name nodes ip = .error e) : e = .unboundLocal := by
  unfold get_slurm_node_name at h
  cases hf : nodes.foldl
      (fun acc n => if n.address = ip then some n.nodeName else acc)
      none with
  | some nm => rw [hf] at h; cases h
  | none => rw [hf] at h; cases h; rfl

theorem mappingFrom_unbound (nodes : List SlurmNode) :
    ∀ (instances : List Inst) (acc : List (String × String)) (i : Inst),
      i ∈ instances → (∀ n ∈ nodes, n.address ≠ i.privateIp) →
      mappingFrom nodes acc instances = .error .unboundLocal
  | [], _, i, hi, _ => by simp at hi
  | j :: rest, acc, i, hi, hum => by
    simp only [mappingFrom]
    cases hg : get_slurm_node_name nodes j.privateIp with
    | error e =>
      rw [gsnn_error_shape nodes j.privateIp e hg]
    | ok nm =>
      rcases List.mem_cons.1 hi with rfl | hi'
      · rw [gsnn_no_match nodes i.privateIp hum] at hg; cases hg
      · exact mappingFrom_unbound nodes rest
          (strSet acc j.instanceId nm) i hi' hum

theorem ec2Main_unbound (instances : List Inst) (topo : List TopoEntry)
    (nodes : List SlurmNode) (slurm_path : String) (i : Inst)
    (hi : i ∈ instances) (hum : ∀ n ∈ nodes, n.address ≠ i.privateIp) :
    ec2Main instances topo nodes slurm_path = .error .unboundLocal := by
  unfold ec2Main instances_slurm_hostnames_mapping
  rw [mappingFrom_unbound nodes instances [] i hi hum]

/-! ### Skipping entries without a `NetworkNodes` field -/

theorem buildSwitchesFrom_skip (mapping : List (String × String))
    (e : TopoEntry) (he : e.networkNodes = none) :
    ∀ (topo1 topo2 : List TopoEntry) (acc : Entries),
      buildSwitchesFrom mapping acc (topo1 ++ e :: topo2) =
        buildSwitchesFrom mapping acc (topo1 ++ topo2)
  | [], topo2, acc => by
    simp only [List.nil_append, buildSwitchesFrom, he]
  | f :: topo1, topo2, acc => by
    cases hf : f.networkNodes with
    | none =>
      simp only [List.cons_append, buildSwitchesFrom, hf]
      exact buildSwitchesFrom_skip mapping e he topo1 topo2 acc
    | some network =>
      simp only [List.cons_append, buildSwitchesFrom, hf]
      cases hd : dictGet mapping f.instanceId with
      | error er => simp only [hd]
      | ok val =>
        simp only [hd]
        cases hi : insertTop acc val network with
        | ok acc' =>
          simp only [hi]
          exact buildSwitchesFrom_skip mapping e he topo1 topo2 acc'
        | error er => simp only [hi]

theorem ec2Main_skip (instances : List Inst) (topo1 topo2 : List TopoEntry)
    (e : TopoEntry) (nodes : List SlurmNode) (slurm_path : String)
    (he : e.networkNodes = none) :
    ec2Main instances (topo1 ++ e :: topo2) nodes slurm_path =
      ec2Main instances (topo1 ++ topo2) nodes slurm_path := by
  unfold ec2Main
  cases instances_slurm_hostnames_mapping nodes instances with
  | error e2 => rfl
  | ok mapping => simp only [buildSwitchesFrom_skip mapping e he topo1 topo2 .nil]

/-- Contents of an optional group extended by names. -/
theorem appendN_none_getD (ns : List String) :
    (appendN none ns).getD [] = ns := by
  cases ns <;> rfl

/-- Presence of an optional group extended by names. -/
theorem appendN_none_isSome (ns : List String) :
    (appendN none ns).isSome = !ns.isEmpty := by
  cases ns <;> rfl

/-! ## Claim theorems -/

/-- C1: serialization follows the depth-agnostic recursive rule — a
dictionary entry (SwitchNode) emits exactly one
`SwitchName=<key> Switches=<comma-joined immediate child keys in
encounter order>` line and then recurses into its children in that same
order, while a list entry (WorkloadGroup) emits exactly one
`SwitchName=<key> Nodes=<comma-joined workload names>` line and does not
recurse; for the tree built from the records n1:[A,B,C], n2:[A,B,C],
n3:[A,D,E] the output is exactly the five claimed lines in order. -/
theorem c1_serialization_recursive_rule :
    (∀ (k : String) (sub rest : Entries),
      recurse_topo (.cons k (.nd sub) rest) =
        mkSwitchesLine k sub.keys ::
          (recurse_topo sub ++ recurse_topo rest)) ∧
    (∀ (k : String) (ws : List String) (rest : Entries),
      recurse_topo (.cons k (.nl ws) rest) =
        mkNodesLine k ws :: recurse_topo rest) ∧
    mainLines [("n1", ["A", "B", "C"]), ("n2", ["A", "B", "C"]),
        ("n3", ["A", "D", "E"])] =
      .ok ["SwitchName=A Switches=B,D", "SwitchName=B Switches=C",
        "SwitchName=C Nodes=n1,n2", "SwitchName=D Switches=E",
        "SwitchName=E Nodes=n3"] :=
  ⟨fun _ _ _ => rfl, fun _ _ _ => rfl, rfl⟩

/-- C2 counterexample: a record with a zero-length path raises no error
at all when the switches dictionary is still empty — `main` discards the
returned `[val]` — and the run then writes the (empty) topology file, so
the claimed unconditional failure on empty paths does not exist. -/
theorem c2_cex_empty_path_accepted :
    insertTop .nil "n1" [] = .ok .nil ∧
    mainTrace [("n1", [])] "/opt/slurm/etc" =
      .ok [.openW "/opt/slurm/etc/topology.conf", .close] :=
  ⟨rfl, rfl⟩

/-- C2 amended: inserting a record with a zero-length path raises a
`TypeError` precisely when the accumulated tree is already non-empty; on
an empty tree the record is silently discarded with no error; and any
error raised in the build loop aborts the pipeline before a single file
operation is emitted.  No `InvalidRecord`-style validation exists, and
records with non-empty paths never hit the empty-path code path. -/
theorem c2_empty_path_behaviour :
    (∀ val : String, insertTop .nil val [] = .ok .nil) ∧
    (∀ (val k : String) (v : NVal) (rest : Entries),
      insertTop (.cons k v rest) val [] = .error .dictPlusListTypeError) ∧
    (∀ (l : List PathRec) (slurm_path : String) (e : Err),
      processRecords l = .error e → mainTrace l slurm_path = .error e) :=
  ⟨fun _ => rfl, fun _ _ _ _ => rfl, fun l p e h => by simp [mainTrace, h]⟩

/-- C2 witness: a concrete run whose second record has an empty path
aborts with the `TypeError` before any file operation. -/
theorem c2_empty_path_behaviour_witness :
    mainTrace [("n1", ["A"]), ("n2", [])] "/opt/slurm/etc" =
      .error .dictPlusListTypeError :=
  c2_empty_path_behaviour.2.2 [("n1", ["A"]), ("n2", [])] "/opt/slurm/etc"
    .dictPlusListTypeError rfl

/-- C3 counterexample: two records with non-empty paths where one full
path is a proper prefix of the other make the insert raise a `TypeError`
(in either insertion order), refuting the claim that insert never fails
on non-empty paths. -/
theorem c3_cex_prefix_conflict_raises :
    processRecords [("n1", ["A", "B"]), ("n2", ["A"])] =
      .error .dictPlusListTypeError ∧
    processRecords [("n2", ["A"]), ("n1", ["A", "B"])] =
      .error .listIndexTypeError :=
  ⟨rfl, rfl⟩

/-- C3 amended: the builder performs no depth-uniformity detection or
rejection — every sequence of records with non-empty and pairwise
prefix-incomparable paths is inserted without error, even when records
disagree on path depth under the same parent key — but when one record's
full path is a proper prefix of another's the insert raises a
`TypeError`. -/
theorem c3_no_depth_check (l : List PathRec)
    (hne : ∀ r ∈ l, r.2 ≠ [])
    (hpw : List.Pairwise (fun r s => conflict r.2 s.2 = false) l) :
    ∃ es, processRecords l = .ok es := by
  obtain ⟨es, h, _, _⟩ := processFrom_ok l .nil rfl hne
    (fun r _ q hq => by simp [leafAt_nil] at hq) hpw
  exact ⟨es, h⟩

/-- C3 witness: two records that disagree on depth under the same parent
key `A` (depth 2 versus depth 3) are both accepted. -/
theorem c3_no_depth_check_witness :
    exOk (processRecords
      [("n1", ["A", "B"]), ("n2", ["A", "C", "D"])]) = true := by
  obtain ⟨es, h⟩ := c3_no_depth_check
    [("n1", ["A", "B"]), ("n2", ["A", "C", "D"])] (by decide) (by decide)
  simp [h, exOk]

/-- C4: inserting any permutation of the same records (with non-empty
paths, as the data model requires of a PathRecord) yields a tree of
identical structure — a dictionary node exists at a key path in one tree
iff it does in the other, likewise a workload group, which fixes the
node set and the parent-child relation, and each group has the same
membership as a set — while within each single run the group order is
exactly that run's insertion order (the record names with that full
path, in run order). -/
theorem c4_perm_same_structure (l1 l2 : List PathRec) (t1 : Entries)
    (hne : ∀ r ∈ l1, r.2 ≠ []) (hperm : l1.Perm l2)
    (h1 : processRecords l1 = .ok t1) :
    ∃ t2, processRecords l2 = .ok t2 ∧
      (∀ q, dictAt (.nd t1) q = dictAt (.nd t2) q) ∧
      (∀ q, (leafAt (.nd t1) q).isSome = (leafAt (.nd t2) q).isSome) ∧
      (∀ q x, x ∈ (leafAt (.nd t1) q).getD [] ↔
        x ∈ (leafAt (.nd t2) q).getD []) ∧
      (∀ q, leafAt (.nd t1) q = appendN none (namesList l1 q)) ∧
      (∀ q, leafAt (.nd t2) q = appendN none (namesList l2 q)) := by
  have hne2 : ∀ r ∈ l2, r.2 ≠ [] := fun r hr => hne r (hperm.mem_iff.2 hr)
  have hpw1 := ok_pairwise l1 t1 hne h1
  have hsym : ∀ {x y : PathRec}, conflict x.2 y.2 = false →
      conflict y.2 x.2 = false := by
    intro x y h
    rw [conflict_comm]; exact h
  have hpw2 : List.Pairwise (fun r s => conflict r.2 s.2 = false) l2 :=
    (hperm.pairwise_iff hsym).1 hpw1
  obtain ⟨t2, h2, _, _⟩ := processFrom_ok l2 .nil rfl hne2
    (fun r _ q hq => by simp [leafAt_nil] at hq) hpw2
  obtain ⟨hc1l, hc1d⟩ := processRecords_char l1 t1 hne h1
  obtain ⟨hc2l, hc2d⟩ := processRecords_char l2 t2 hne2 h2
  have hpq : ∀ q, (namesList l1 q).Perm (namesList l2 q) :=
    fun q => (hperm.filter _).map _
  refine ⟨t2, h2, ?_, ?_, ?_, hc1l, hc2l⟩
  · intro q
    rw [hc1d q, hc2d q]
    have hany : l1.any (fun r => strictPref q r.2) =
        l2.any (fun r => strictPref q r.2) := by
      cases h1a : l1.any (fun r => strictPref q r.2) with
      | true =>
        obtain ⟨r, hr, hsp⟩ := List.any_eq_true.1 h1a
        have h2a : l2.any (fun r => strictPref q r.2) = true :=
          List.any_eq_true.2 ⟨r, hperm.mem_iff.1 hr, hsp⟩
        rw [h2a]
      | false =>
        cases h2a : l2.any (fun r => strictPref q r.2) with
        | false => rfl
        | true =>
          obtain ⟨r, hr, hsp⟩ := List.any_eq_true.1 h2a
          have h1b : l1.any (fun r => strictPref q r.2) = true :=
            List.any_eq_true.2 ⟨r, hperm.mem_iff.2 hr, hsp⟩
          rw [h1a] at h1b
          cases h1b
    rw [hany]
  · intro q
    rw [hc1l q, hc2l q, appendN_none_isSome, appendN_none_isSome]
    have hlen := (hpq q).length_eq
    cases hn1 : namesList l1 q <;> cases hn2 : namesList l2 q <;>
      rw [hn1, hn2] at hlen <;> simp_all
  · intro q x
    rw [hc1l q, hc2l q, appendN_none_getD, appendN_none_getD]
    exact (hpq q).mem_iff

/-- C4 witness: a two-record run and its reversal both succeed. -/
theorem c4_perm_same_structure_witness :
    exOk (processRecords [("n2", ["A", "C"]), ("n1", ["A", "B"])]) = true := by
  obtain ⟨t2, h2, _⟩ := c4_perm_same_structure
    [("n1", ["A", "B"]), ("n2", ["A", "C"])]
    [("n2", ["A", "C"]), ("n1", ["A", "B"])]
    (.cons "A" (.nd (.cons "B" (.nl ["n1"])
      (.cons "C" (.nl ["n2"]) .nil))) .nil)
    (by decide) (by decide) rfl
  simp [h2, exOk]

/-- C5: a successful insert preserves the tree invariants: the result is
well-formed (every dictionary keeps pairwise-distinct keys, so an
identifier under a given parent at a given depth names exactly one node
and a record sharing a path prefix merges into the existing subtree
instead of creating a duplicate sibling), every existing dictionary node
persists, and workload groups are append-only — an existing group is
either untouched or extended by exactly the new workload name at its
end, so names accumulate in arrival order and are never overwritten or
removed. -/
theorem c5_insert_invariants (es es' : Entries) (val : String)
    (p : List String) (hwf : wfE es = true)
    (hok : insertTop es val p = .ok es') :
    wfE es' = true ∧
    (∀ q, dictAt (.nd es) q = true → dictAt (.nd es') q = true) ∧
    (∀ q ws, leafAt (.nd es) q = some ws →
      leafAt (.nd es') q = some ws ∨
        leafAt (.nd es') q = some (ws ++ [val])) := by
  cases p with
  | nil =>
    cases es with
    | nil =>
      simp only [insertTop, Except.ok.injEq] at hok
      subst hok
      exact ⟨hwf, fun _ h => h, fun _ _ h => .inl h⟩
    | cons k v rest => simp [insertTop] at hok
  | cons k prest =>
    have hadd := insertTop_ok_add es es' val k prest hok
    refine ⟨(add_wf val (k :: prest) (.nd es) (.nd es') hwf hadd).1,
      ?_, ?_⟩
    · intro q hq
      rw [add_dictAt val (k :: prest) (.nd es) (.nd es') hwf
        (by simp) hadd q, hq]
      simp
    · intro q ws hws
      obtain ⟨hl1, hl2⟩ := add_leafAt val (k :: prest) (.nd es) (.nd es') hadd
      by_cases hq : q = k :: prest
      · subst hq
        right
        rw [hl1, hws]
        rfl
      · left
        rw [hl2 q hq, hws]

/-- C5 witness: inserting a second workload along an existing full path
appends it to the existing group. -/
theorem c5_insert_invariants_witness :
    leafAt (.nd (.cons "A" (.nl ["x", "y"]) .nil)) ["A"] = some ["x"] ∨
    leafAt (.nd (.cons "A" (.nl ["x", "y"]) .nil)) ["A"] =
      some (["x"] ++ ["y"]) :=
  (c5_insert_invariants (.cons "A" (.nl ["x"]) .nil)
    (.cons "A" (.nl ["x", "y"]) .nil) "y" ["A"] (by decide) rfl).2.2
    ["A"] ["x"] rfl

/-- C6: chunking partitions the identifiers into ordered chunks of at
most the batch size whose concatenation is the original list (250
identifiers yield exactly batches of sizes 100, 100, 50), and for each
chunk the paginated fetch concatenates the entries of every page until
no continuation token remains, so the combined result over all chunks
equals what the single unbounded call (one entry per identifier) would
return — no entry dropped or duplicated. -/
theorem c6_chunked_paginated_fetch (ids : List String)
    (provider : List String → List (List TopoEntry))
    (entryOf : String → TopoEntry)
    (hprov : ∀ c, (provider c).flatten = c.map entryOf) :
    (chunk ids 100).flatten = ids ∧
    (∀ c ∈ chunk ids 100, c.length ≤ 100) ∧
    ((chunk ids 100).map
        (fun c => get_instances_topology (provider c))).flatten =
      ids.map entryOf ∧
    (chunk (List.range 250) 100).map List.length = [100, 100, 50] := by
  refine ⟨chunk_flatten ids 100 (by omega), chunk_size_le ids 100, ?_, ?_⟩
  · have hmap : (chunk ids 100).map
        (fun c => get_instances_topology (provider c)) =
        (chunk ids 100).map (fun c => c.map entryOf) := by
      apply List.map_congr_left
      intro c _
      rw [get_instances_topology_flatten, hprov]
    rw [hmap, ← List.map_flatten, chunk_flatten ids 100 (by omega)]
  · set_option maxRecDepth 10000 in decide

/-- C6 witness: a concrete two-identifier fetch against a single-page
provider returns exactly the per-identifier entries. -/
theorem c6_chunked_paginated_fetch_witness :
    ((chunk ["i1", "i2"] 100).map (fun c =>
      get_instances_topology [c.map (fun s => ⟨s, none⟩)])).flatten =
      ["i1", "i2"].map (fun s => (⟨s, none⟩ : TopoEntry)) :=
  (c6_chunked_paginated_fetch ["i1", "i2"]
    (fun c => [c.map (fun s => ⟨s, none⟩)]) (fun s => ⟨s, none⟩)
    (fun c => by simp)).2.2.1

/-- C7 counterexample: `write_topo` performs no rename at all — on a
concrete tree its trace opens the final `topology.conf` path directly
for truncating write as its very first operation — so the claimed
write-to-temporary-then-rename scheme is absent. -/
theorem c7_cex_no_atomic_rename :
    (write_topo (.cons "A" (.nl ["n1"]) .nil) "/opt/slurm/etc").filter
        (fun op => op.isRen) = [] ∧
    (write_topo (.cons "A" (.nl ["n1"]) .nil) "/opt/slurm/etc").head? =
      some (.openW "/opt/slurm/etc/topology.conf") :=
  ⟨rfl, rfl⟩

/-- C7 amended: the output file is written in place, not atomically —
for every tree and path the write trace contains no rename and its first
operation opens `<path>/topology.conf` directly with truncation — while
the abort half of the claim holds: an error raised while building the
tree aborts the pipeline before any file operation is emitted. -/
theorem c7_write_in_place (es : Entries) (slurm_path : String) :
    ((write_topo es slurm_path).filter (fun op => op.isRen) = [] ∧
      (write_topo es slurm_path).head? =
        some (.openW (slurm_path ++ "/topology.conf"))) ∧
    (∀ (l : List PathRec) (e : Err), processRecords l = .error e →
      mainTrace l slurm_path = .error e) := by
  refine ⟨⟨?_, rfl⟩, fun l e h => by simp [mainTrace, h]⟩
  rw [List.filter_eq_nil_iff]
  intro op hop
  simp [write_topo] at hop
  rcases hop with rfl | ⟨x, hx, rfl⟩ | rfl <;> simp [FileOp.isRen]

/-- C7 witness: a run aborted by a build error emits no file operation. -/
theorem c7_write_in_place_witness :
    mainTrace [("n2", ["A"]), ("n1", ["A", "B"])] "/etc/slurm" =
      .error .listIndexTypeError :=
  (c7_write_in_place .nil "/etc/slurm").2 [("n2", ["A"]), ("n1", ["A", "B"])]
    .listIndexTypeError rfl

/-- C8: a private address matching no registered scheduler node makes
`get_slurm_node_name` raise `UnboundLocalError` (the loop never assigns
`node_name`), and the error propagates through the hostname-mapping
stage, aborting the whole pipeline with an error and no output — the
node is never silently given a value or dropped from the topology. -/
theorem c8_unresolved_address_aborts (nodes : List SlurmNode) (ip : String)
    (instances : List Inst) (topo : List TopoEntry) (slurm_path : String)
    (i : Inst) :
    ((∀ n ∈ nodes, n.address ≠ ip) →
      get_slurm_node_name nodes ip = .error .unboundLocal) ∧
    (i ∈ instances → (∀ n ∈ nodes, n.address ≠ i.privateIp) →
      ec2Main instances topo nodes slurm_path = .error .unboundLocal) :=
  ⟨gsnn_no_match nodes ip,
    fun hi hum => ec2Main_unbound instances topo nodes slurm_path i hi hum⟩

/-- C8 witness: one instance whose address is not registered aborts the
concrete pipeline with `UnboundLocalError`. -/
theorem c8_unresolved_address_aborts_witness :
    ec2Main [⟨"i-1", "10.0.0.9"⟩] [⟨"i-1", some ["A"]⟩]
      [⟨"10.0.0.1", "node1"⟩] "/opt/slurm/etc" = .error .unboundLocal :=
  (c8_unresolved_address_aborts [⟨"10.0.0.1", "node1"⟩] "10.0.0.9"
    [⟨"i-1", "10.0.0.9"⟩] [⟨"i-1", some ["A"]⟩] "/opt/slurm/etc"
    ⟨"i-1", "10.0.0.9"⟩).2 (by decide) (by decide)

/-- C9: serialization is deterministic and order-stable: the emitted
lines are a pure structural function of the tree that visits entries in
stored (insertion/encounter) order — the line of a dictionary entry
lists its child keys in encounter order and every entry's lines precede
the following entries' lines — and concretely a tree whose top keys were
inserted as B then A serializes with the whole B branch first, which
differs from the sorted-key order. -/
theorem c9_serialization_insertion_order :
    (∀ (k : String) (sub rest : Entries),
      (recurse_topo (.cons k (.nd sub) rest)).head? =
        some (mkSwitchesLine k sub.keys)) ∧
    (∀ (k : String) (ws : List String) (rest : Entries),
      recurse_topo (.cons k (.nl ws) rest) =
        mkNodesLine k ws :: recurse_topo rest) ∧
    mainLines [("x", ["B", "C"]), ("y", ["A", "D"])] =
      .ok ["SwitchName=B Switches=C", "SwitchName=C Nodes=x",
        "SwitchName=A Switches=D", "SwitchName=D Nodes=y"] ∧
    ["SwitchName=B Switches=C", "SwitchName=C Nodes=x",
        "SwitchName=A Switches=D", "SwitchName=D Nodes=y"] ≠
      ["SwitchName=A Switches=D", "SwitchName=D Nodes=y",
        "SwitchName=B Switches=C", "SwitchName=C Nodes=x"] :=
  ⟨fun _ _ _ => rfl, fun _ _ _ => rfl, rfl, by decide⟩

/-- C10: a topology entry whose `NetworkNodes` field is absent is
silently skipped during tree construction: both the build loop and the
whole pipeline produce exactly the same result with or without the
entry, so no error is raised because of it, the tree is unchanged by it,
and its workload name never reaches the serialized output. -/
theorem c10_missing_network_nodes_skipped (mapping : List (String × String))
    (acc : Entries) (instances : List Inst) (nodes : List SlurmNode)
    (slurm_path : String) (topo1 topo2 : List TopoEntry) (e : TopoEntry)
    (he : e.networkNodes = none) :
    buildSwitchesFrom mapping acc (topo1 ++ e :: topo2) =
      buildSwitchesFrom mapping acc (topo1 ++ topo2) ∧
    ec2Main instances (topo1 ++ e :: topo2) nodes slurm_path =
      ec2Main instances (topo1 ++ topo2) nodes slurm_path :=
  ⟨buildSwitchesFrom_skip mapping e he topo1 topo2 acc,
    ec2Main_skip instances topo1 topo2 e nodes slurm_path he⟩

/-- C10 witness: a concrete entry with no `NetworkNodes` leaves the
concrete pipeline result unchanged. -/
theorem c10_missing_network_nodes_skipped_witness :
    ec2Main [⟨"i-1", "10.0.0.1"⟩] ([] ++ ⟨"i-2", none⟩ :: [])
        [⟨"10.0.0.1", "node1"⟩] "/opt/slurm/etc" =
      ec2Main [⟨"i-1", "10.0.0.1"⟩] ([] ++ [])
        [⟨"10.0.0.1", "node1"⟩] "/opt/slurm/etc" :=
  (c10_missing_network_nodes_skipped [] .nil [⟨"i-1", "10.0.0.1"⟩]
    [⟨"10.0.0.1", "node1"⟩] "/opt/slurm/etc" [] [] ⟨"i-2", none⟩ rfl).2

end EC2Topo
